import Mathlib

/-!
Verification of the custom Playwright reporter in src/failed-report.ts.

The source file contains two reporter variants:
* a failure-only reporter (records only failed tests, one record per error),
* a full-run reporter (records every test once, with per-status statistics).

JavaScript strings are embedded as lists of characters (JStr); the two
regular expressions used for expected/actual extraction and the ANSI-escape
stripper are embedded as executable scanners with the exact backtracking
semantics of the source patterns.
-/

/-- JavaScript strings are modelled as lists of characters. -/
abbrev JStr := List Char

/-- String.prototype.startsWith: the second list is a prefix of the first. -/
def startsWithL (s pre : JStr) : Bool :=
  match pre, s with
  | [], _ => true
  | _ :: _, [] => false
  | p :: ps, c :: cs => c == p && startsWithL cs ps

/-- String.prototype.includes for a single character. -/
def containsCharL (s : JStr) (c : Char) : Bool :=
  s.any (fun x => x == c)

/-- String.prototype.split with a single-character separator.
JS semantics: "".split(c) = [""], separators delimit (possibly empty) fields. -/
def splitOnC (sep : Char) : JStr → List JStr
  | [] => [[]]
  | x :: xs =>
    if x == sep then [] :: splitOnC sep xs
    else
      match splitOnC sep xs with
      | [] => [[x]]
      | h :: t => (x :: h) :: t

/-- The characters matched by the regex class \s (ASCII part, as used here). -/
def isSpaceJS (c : Char) : Bool :=
  c == ' ' || c == '\t' || c == '\n' || c == '\r' || c == '\x0b' || c == '\x0c'

/-- String.prototype.trim: drop whitespace from both ends. -/
def trimL (s : JStr) : JStr :=
  ((s.dropWhile isSpaceJS).reverse.dropWhile isSpaceJS).reverse

/-- Parameter characters of an ANSI escape sequence: the class [0-9;]. -/
def isParamChar (c : Char) : Bool :=
  c.isDigit || c == ';'

/-- The class [a-zA-Z] terminating an ANSI escape sequence. -/
def isAsciiLetter (c : Char) : Bool :=
  ('a' ≤ c && c ≤ 'z') || ('A' ≤ c && c ≤ 'Z')

/-- Fueled scanner for stripAnsiCodes, i.e. the global replacement of
/\x1B\[[0-9;]*[a-zA-Z]/ by the empty string.  At each position a match is
attempted; on success the matched escape is dropped and scanning resumes
after it, otherwise the character is kept.  The fuel equals the input
length in stripAnsi, which suffices because every step consumes at least
one character. -/
def stripAnsiF : Nat → JStr → JStr
  | 0, s => s
  | _, [] => []
  | fuel + 1, c :: rest =>
    if c == '\x1b' then
      match rest with
      | '[' :: rest2 =>
        match rest2.dropWhile isParamChar with
        | c2 :: rest3 =>
          if isAsciiLetter c2 then stripAnsiF fuel rest3
          else c :: stripAnsiF fuel rest
        | [] => c :: stripAnsiF fuel rest
      | _ => c :: stripAnsiF fuel rest
    else c :: stripAnsiF fuel rest

/-- function stripAnsiCodes(str) { return str.replace(/\x1B\[[0-9;]*[a-zA-Z]/g, ""); } -/
def stripAnsiCodes (s : JStr) : JStr := stripAnsiF s.length s

/-- Case-insensitive match of a literal pattern fragment against the head of
the input; returns the remainder on success (the /i flag of both regexes). -/
def matchCI : JStr → JStr → Option JStr
  | [], s => some s
  | _ :: _, [] => none
  | p :: ps, c :: cs => if c.toLower == p.toLower then matchCI ps cs else none

/-- Head of the pattern /Expected(?: value)?:/i: literal "expected", then the
greedy optional " value", then ":".  Backtracking of the optional group is
realised by first trying " value:" and falling back to ":". -/
def matchExpectedHead (s : JStr) : Option JStr :=
  match matchCI "expected".data s with
  | none => none
  | some r =>
    match matchCI " value:".data r with
    | some r2 => some r2
    | none => matchCI ":".data r

/-- Head of the pattern /(?:Received|Actual):/i. -/
def matchReceivedHead (s : JStr) : Option JStr :=
  match matchCI "received:".data s with
  | some r => some r
  | none => matchCI "actual:".data s

/-- Tail of both patterns: \s*([^\n]+) with the greedy/backtracking semantics
of the JS engine.  Returns the capture and the remainder after the match.
If at least one character follows the whitespace run it is necessarily not a
newline (newlines are whitespace), so the capture is the maximal non-newline
run from there.  If the whitespace run reaches the end of input, the engine
backtracks: the capture becomes the last non-newline character of the run,
followed only by the newlines that ended the input. -/
def matchValueTail (rest : JStr) : Option (JStr × JStr) :=
  let w := rest.takeWhile isSpaceJS
  let r := rest.dropWhile isSpaceJS
  match r with
  | _ :: _ => some (r.takeWhile (fun c => !(c == '\n')), r.dropWhile (fun c => !(c == '\n')))
  | [] =>
    let rw := w.reverse
    match rw.dropWhile (fun c => c == '\n') with
    | c :: _ => some ([c], (rw.takeWhile (fun c => c == '\n')).reverse)
    | [] => none

/-- One match attempt of a full pattern (head then tail) at the current
position. -/
def tryMatchWith (head : JStr → Option JStr) (s : JStr) : Option (JStr × JStr) :=
  match head s with
  | none => none
  | some rest => matchValueTail rest

/-- Fueled String.prototype.matchAll loop: at each position try a match;
on success record the capture and resume after the match, otherwise advance
one character.  Fuel = input length suffices because the input strictly
shrinks at every step. -/
def matchAllWith (head : JStr → Option JStr) : Nat → JStr → List JStr
  | 0, _ => []
  | _ + 1, [] => []
  | fuel + 1, c :: cs =>
    match tryMatchWith head (c :: cs) with
    | some (cap, rem) => cap :: matchAllWith head fuel rem
    | none => matchAllWith head fuel cs

/-- Array.from(raw.matchAll(/Expected(?: value)?:\s*([^\n]+)/gi)) restricted
to the first capture group of each match. -/
def matchAllExpected (s : JStr) : List JStr :=
  matchAllWith matchExpectedHead s.length s

/-- Array.from(raw.matchAll(/(?:Received|Actual):\s*([^\n]+)/gi)) restricted
to the first capture group of each match. -/
def matchAllReceived (s : JStr) : List JStr :=
  matchAllWith matchReceivedHead s.length s

/-- The expected-value extraction of onTestEnd: matches are taken on the raw
message and each capture is trimmed and then ANSI-stripped
(stripAnsiCodes(m[1].trim())). -/
def extractExpected (raw : JStr) : List JStr :=
  (matchAllExpected raw).map (fun cap => stripAnsiCodes (trimL cap))

/-- The actual-value extraction of onTestEnd, same shape as extractExpected. -/
def extractActual (raw : JStr) : List JStr :=
  (matchAllReceived raw).map (fun cap => stripAnsiCodes (trimL cap))

/-- Modelled from the spec: the spec sentence asks for escape stripping
before any pattern matching; this definition follows the spec words (strip
the whole message first, then match, then trim each capture) and is compared
against extractExpected, which follows the source. -/
def specStripThenMatchExpected (raw : JStr) : List JStr :=
  (matchAllWith matchExpectedHead (stripAnsiCodes raw).length (stripAnsiCodes raw)).map trimL

/-- Values stored in the customTags map: a plain string or (for the reserved
payment_method key) an accumulated list of strings. -/
inductive TagValue where
  | str (s : JStr)
  | list (l : List JStr)
deriving DecidableEq

/-- Result of extractDataFromTags.  The customTags object is modelled as an
association list in key insertion order (JS object property order). -/
structure TagData where
  local_ : JStr
  realm : JStr
  customTags : List (JStr × TagValue)
deriving DecidableEq

/-- Lookup in the customTags association list (JS property read). -/
def lookupTag : List (JStr × TagValue) → JStr → Option TagValue
  | [], _ => none
  | (k', v) :: t, k => if k' == k then some v else lookupTag t k

/-- JS property write: replace the value in place if the key is present,
otherwise append the new key at the end (insertion order). -/
def setTag : List (JStr × TagValue) → JStr → TagValue → List (JStr × TagValue)
  | [], k, v => [(k, v)]
  | (k', v') :: t, k, v => if k' == k then (k, v) :: t else (k', v') :: setTag t k v

/-- The payment_method branch: if (!customTags["payment_method"])
customTags["payment_method"] = []; then push the new value.  The key always
holds a list when it is present. -/
def pushPaymentMethod (m : List (JStr × TagValue)) (v : JStr) : List (JStr × TagValue) :=
  let cur := match lookupTag m "payment_method".data with
    | some (.list l) => l
    | _ => []
  setTag m "payment_method".data (.list (cur ++ [v]))

/-- tag.replace(/^@(local|locale):/, ""): the anchored alternation removes
whichever of the two prefixes is present. -/
def replaceLocalePre (t : JStr) : JStr :=
  if startsWithL t "@local:".data then t.drop 7
  else if startsWithL t "@locale:".data then t.drop 8
  else t

/-- One iteration of the tag loop of extractDataFromTags. -/
def stepTag (d : TagData) (tag : JStr) : TagData :=
  if startsWithL tag "@local:".data || startsWithL tag "@locale:".data then
    { d with local_ := replaceLocalePre tag }
  else if startsWithL tag "@realm:".data then
    { d with realm := tag.drop 7 }
  else if startsWithL tag "@payment_method:".data then
    { d with customTags := pushPaymentMethod d.customTags (tag.drop 16) }
  else if startsWithL tag "@".data && containsCharL tag ':' then
    -- const [key, value] = tag.slice(1).split(":")
    -- the guard guarantees at least two parts, so getD never uses its default
    let parts := splitOnC ':' (tag.drop 1)
    { d with customTags := setTag d.customTags (parts.getD 0 []) (.str (parts.getD 1 [])) }
  else d

/-- function extractDataFromTags(tags, testTitle), data accumulation only
(the console.warn side effect is modelled by tagWarnCount below). -/
def extractDataFromTags (tags : List JStr) : TagData :=
  tags.foldl stepTag { local_ := "N/A".data, realm := "N/A".data, customTags := [] }

/-- Number of console.warn calls emitted by extractDataFromTags: one when
local or realm is still the sentinel after the loop, none otherwise. -/
def tagWarnCount (tags : List JStr) : Nat :=
  let d := extractDataFromTags tags
  if d.local_ == "N/A".data || d.realm == "N/A".data then 1 else 0

/-- function extractTags(test) of the failure-only reporter: the verbatim
tag list, or the single placeholder "No tags" when the list is empty. -/
def extractTags (tags : List JStr) : List JStr :=
  if tags.length > 0 then tags else ["No tags".data]

/-- Same for the full-run reporter, whose placeholder is "Aucun tag". -/
def extractTagsFull (tags : List JStr) : List JStr :=
  if tags.length > 0 then tags else ["Aucun tag".data]

/-- Playwright test statuses (result.status). -/
inductive Status where
  | passed
  | failed
  | skipped
  | timedOut
  | interrupted
deriving DecidableEq

/-- One completion event as delivered to onTestEnd: the fields of
(test, result) that the reporter reads.  parentTitle is test.parent?.title,
location is test.location (file, line), errors carries the possibly-absent
message of each entry of result.errors. -/
structure TestEvent where
  title : JStr
  parentTitle : Option JStr
  location : Option (JStr × Nat)
  duration : Nat
  status : Status
  tags : List JStr
  errors : List (Option JStr)
deriving DecidableEq

/-- JS x || dflt for an optional string (undefined and "" are falsy). -/
def jsOrStr (o : Option JStr) (dflt : JStr) : JStr :=
  match o with
  | some s => if s == [] then dflt else s
  | none => dflt

/-- path.basename: the part of the path after the last '/'. -/
def basenameL (p : JStr) : JStr :=
  (p.reverse.takeWhile (fun c => !(c == '/'))).reverse

/-- test.location ? basename(file) + ":" + line : "unknown". -/
def locString (e : TestEvent) : JStr :=
  match e.location with
  | some (f, line) => basenameL f ++ ':' :: (toString line).data
  | none => "unknown".data

/-- error.message || "No error message" (undefined and "" are falsy). -/
def rawOf (msg : Option JStr) : JStr :=
  match msg with
  | some s => if s == [] then "No error message".data else s
  | none => "No error message".data

/-- The record pushed by the failure-only reporter. -/
structure TestRecord where
  title : JStr
  location : JStr
  duration : Nat
  rawError : JStr
  expected : List JStr
  actual : List JStr
  tags : List JStr
  local_ : JStr
  realm : JStr
  customTags : List (JStr × TagValue)
deriving DecidableEq

/-- JS Map.get modelled on an association list (keys are unique by
construction since insertion goes through mapSet). -/
def mapGet {α : Type} : List (JStr × α) → JStr → Option α
  | [], _ => none
  | (k', v) :: t, k => if k' == k then some v else mapGet t k

/-- JS Map.set: replace the value in place when the key is present,
otherwise append the new entry (insertion order). -/
def mapSet {α : Type} : List (JStr × α) → JStr → α → List (JStr × α)
  | [], k, v => [(k, v)]
  | (k', v') :: t, k, v => if k' == k then (k, v) :: t else (k', v') :: mapSet t k v

/-- const tests = map.get(key) || []; tests.push(r); map.set(key, tests). -/
def mapPush {α : Type} (m : List (JStr × List α)) (k : JStr) (r : α) : List (JStr × List α) :=
  mapSet m k (((mapGet m k).getD []) ++ [r])

/-- All records of a grouped map, in group order. -/
def allRecords {α : Type} (m : List (JStr × List α)) : List α :=
  (m.map (fun kv => kv.2)).flatten

/-- The state of the failure-only reporter (this.failedTests). -/
abbrev FMap := List (JStr × List TestRecord)

/-- Suite key of the failure-only reporter:
test.parent?.title || "Tests without describe". -/
def describeNameOf (e : TestEvent) : JStr :=
  jsOrStr e.parentTitle "Tests without describe".data

/-- The record built for one entry of result.errors in the failure-only
reporter's onTestEnd (title, location, tag data are computed once per event
and shared by all records of the event). -/
def recordOfError (e : TestEvent) (err : Option JStr) : TestRecord :=
  let tags := extractTags e.tags
  let d := extractDataFromTags tags
  let raw := rawOf err
  { title := e.title
    location := locString e
    duration := e.duration
    rawError := stripAnsiCodes raw
    expected := extractExpected raw
    actual := extractActual raw
    tags := tags
    local_ := d.local_
    realm := d.realm
    customTags := d.customTags }

/-- onTestEnd of the failure-only reporter: non-failed events are ignored;
for a failed event, one record per entry of result.errors is pushed onto the
suite's list (the push sits inside the error loop in the source). -/
def onTestEnd (st : FMap) (e : TestEvent) : FMap :=
  if e.status == .failed then
    e.errors.foldl (fun acc err => mapPush acc (describeNameOf e) (recordOfError e err)) st
  else st

/-- The record stored by the full-run reporter: every status is kept and the
error fields are optional (undefined until the error loop assigns them). -/
structure FullRecord where
  title : JStr
  location : JStr
  duration : Nat
  status : Status
  rawError : Option JStr
  expected : Option (List JStr)
  actual : Option (List JStr)
  tags : List JStr
  local_ : JStr
  realm : JStr
  customTags : List (JStr × TagValue)
deriving DecidableEq

/-- The state of the full-run reporter (this.tests). -/
abbrev FullMap := List (JStr × List FullRecord)

/-- Suite key of the full-run reporter:
test.parent?.title || "Tests sans describe". -/
def describeNameFullOf (e : TestEvent) : JStr :=
  jsOrStr e.parentTitle "Tests sans describe".data

/-- The testData object before the error loop of the full-run onTestEnd. -/
def mkFullBase (e : TestEvent) : FullRecord :=
  let tags := extractTagsFull e.tags
  let d := extractDataFromTags tags
  { title := e.title
    location := locString e
    duration := e.duration
    status := e.status
    rawError := none
    expected := none
    actual := none
    tags := tags
    local_ := d.local_
    realm := d.realm
    customTags := d.customTags }

/-- One iteration of the error loop of the full-run onTestEnd: the three
error fields are overwritten by the current error. -/
def overwriteError (td : FullRecord) (err : Option JStr) : FullRecord :=
  let raw := rawOf err
  { td with
    rawError := some (stripAnsiCodes raw)
    expected := some (extractExpected raw)
    actual := some (extractActual raw) }

/-- The single record produced by the full-run onTestEnd for one event: the
error loop runs only for failed events and overwrites the error fields once
per error. -/
def fullRecordOf (e : TestEvent) : FullRecord :=
  if e.status == .failed then e.errors.foldl overwriteError (mkFullBase e)
  else mkFullBase e

/-- onTestEnd of the full-run reporter: exactly one record is pushed per
event, whatever the status. -/
def onTestEndFull (st : FullMap) (e : TestEvent) : FullMap :=
  mapPush st (describeNameFullOf e) (fullRecordOf e)

/-- The four counters of the statistics loop of the full-run onEnd. -/
structure RunStats where
  totalTests : Nat
  totalPassed : Nat
  totalFailed : Nat
  totalSkipped : Nat
deriving DecidableEq

/-- Body of the statistics loop for one record. -/
def statsStep (s : RunStats) (t : FullRecord) : RunStats :=
  { totalTests := s.totalTests + 1
    totalPassed := s.totalPassed + (if t.status == .passed then 1 else 0)
    totalFailed := s.totalFailed + (if t.status == .failed then 1 else 0)
    totalSkipped := s.totalSkipped + (if t.status == .skipped then 1 else 0) }

/-- The nested statistics loop of the full-run onEnd
(for tests of map.values, for t of tests). -/
def runStats (st : FullMap) : RunStats :=
  st.foldl (fun s kv => kv.2.foldl statsStep s) ⟨0, 0, 0, 0⟩

/-- Observable steps of the delivery phase of onEnd (failure-only reporter,
lines 117-762): console logging, the report write, the webhook POST, the
SMTP verification and the mail retry loop.  Exceptions of the two transports
are caught in the source, so every outcome is an ordinary trace event and
onEnd never raises to its caller. -/
inductive DEvent where
  | logAllPassed
  | writeReport
  | webhookPost
  | webhookOkLog
  | webhookErrLog
  | webhookSkipWarn
  | verifyAttempt
  | verifyOkLog
  | verifyErrLog
  | sendAttempt (n : Nat)
  | sendFailLog (n : Nat)
  | sleepDelay (ms : Nat)
  | sendOkLog
  | sendTerminalLog
deriving DecidableEq

/-- Outcome environment for one run of the delivery phase: whether the
webhook URL is configured, whether the single POST succeeds, whether
transporter.verify() succeeds and whether sendMail succeeds on a given
attempt number. -/
structure DeliveryEnv where
  webhookUrl : Option JStr
  webhookOk : Bool
  verifyOk : Bool
  sendOk : Nat → Bool

/-- The loop body of sendEmailWithRetry:
for (let attempt = 1; attempt <= retries; attempt++) try send else log the
attempt failure and sleep the delay when attempts remain; after the loop a
terminal failure is logged. -/
def retryFrom (sendOk : Nat → Bool) (retries delay attempt : Nat) : List DEvent :=
  if h : attempt ≤ retries then
    if sendOk attempt then [.sendAttempt attempt, .sendOkLog]
    else
      [.sendAttempt attempt, .sendFailLog attempt] ++
      (if attempt < retries then [.sleepDelay delay] else []) ++
      retryFrom sendOk retries delay (attempt + 1)
  else [.sendTerminalLog]
termination_by retries + 1 - attempt
decreasing_by omega

/-- sendEmailWithRetry(transporter, mailOptions, retries, delay): attempts
start at 1.  The source calls it with the defaults retries = 3,
delay = 1000. -/
def sendEmailWithRetryT (sendOk : Nat → Bool) (retries delay : Nat) : List DEvent :=
  retryFrom sendOk retries delay 1

/-- The mail channel of onEnd: createTransport, then transporter.verify()
inside try/catch - a verification failure is logged and onEnd returns, so no
send is ever attempted and verification is not retried; on success the send
loop runs with the fixed budget 3 and delay 1000. -/
def mailTrace (env : DeliveryEnv) : List DEvent :=
  .verifyAttempt ::
    (if env.verifyOk then .verifyOkLog :: sendEmailWithRetryT env.sendOk 3 1000
     else [.verifyErrLog])

/-- The webhook channel of onEnd: one POST inside try/catch when the URL is
configured (success and failure each log once, the failure is swallowed),
or a warning when it is not. -/
def webhookTrace (env : DeliveryEnv) : List DEvent :=
  match env.webhookUrl with
  | some _ => .webhookPost :: (if env.webhookOk then [.webhookOkLog] else [.webhookErrLog])
  | none => [.webhookSkipWarn]

/-- Delivery-phase trace of onEnd for the failure-only reporter: early
return when no failed test was recorded, otherwise write the HTML report,
run the webhook channel, then the mail channel. -/
def onEndTrace (st : FMap) (env : DeliveryEnv) : List DEvent :=
  if st.isEmpty then [.logAllPassed]
  else .writeReport :: (webhookTrace env ++ mailTrace env)

/-- Bool test for send-loop events, used to state that the mail retry loop
emits nothing but send-loop events. -/
def isSendLoopEvent : DEvent → Bool
  | .sendAttempt _ => true
  | .sendFailLog _ => true
  | .sleepDelay _ => true
  | .sendOkLog => true
  | .sendTerminalLog => true
  | _ => false

/-- Bool test for send attempts, used to state that no send attempt occurs
after a verification failure. -/
def isSendAttempt : DEvent → Bool
  | .sendAttempt _ => true
  | _ => false

/-- Payment value contributed by one tag: the pushed value for a
payment_method tag, nothing otherwise (used to state accumulation). -/
def pmValueOf (t : JStr) : Option JStr :=
  if startsWithL t "@payment_method:".data then some (t.drop 16) else none

/-- The accumulated payment_method list of a customTags map ([] when the key
is absent). -/
def getPML (m : List (JStr × TagValue)) : List JStr :=
  match lookupTag m "payment_method".data with
  | some (.list l) => l
  | _ => []

/-- Bool: the two lists disagree at some position covered by both, so no
string can start with both of them. -/
def headMismatch : JStr → JStr → Bool
  | [], _ => false
  | _, [] => false
  | a :: as, b :: bs => !(a == b) || headMismatch as bs

/-- Tags that write the generic custom key k are exactly those that start
with "@" ++ k ++ ":" (k colon-free and not reserved). -/
def writesKeyB (k : JStr) (t : JStr) : Bool :=
  startsWithL t ('@' :: (k ++ [':']))

/-- A failed completion event carrying two recorded errors, used to settle
the multiple-error ingestion claim. -/
def c1Event : TestEvent :=
  { title := "adds numbers".data
    parentTitle := some "math suite".data
    location := none
    duration := 12
    status := .failed
    tags := ["@local:fr".data]
    errors := [some "Expected: 1\nReceived: 2".data, some "Expected: 9\nReceived: 8".data] }

/-- An error message whose ANSI escapes sit next to, but not inside, the
matched tokens and captured values. -/
def c3Interleaved : JStr := "\x1b[32mExpected: 5\x1b[39m\nReceived: 3".data

/-- An error message in which an ANSI escape interrupts the token
"Expected"; stripping first would restore the line "Expected: 5". -/
def c3TokenBroken : JStr := "Exp\x1b[0mected: 5\nReceived: 3".data

/-- A delivery environment in which everything succeeds. -/
def envAllOk : DeliveryEnv :=
  { webhookUrl := some "https://teams.example/hook".data
    webhookOk := true
    verifyOk := true
    sendOk := fun _ => true }

/-- A delivery environment whose SMTP verification fails. -/
def envVerifyFail : DeliveryEnv :=
  { webhookUrl := some "https://teams.example/hook".data
    webhookOk := true
    verifyOk := false
    sendOk := fun _ => true }

/-- A send operation that fails on attempts 1 to 3 and succeeds on 4. -/
def sendOkFrom4 : Nat → Bool := fun n => n == 4

/-- A passed event, a failed event and a skipped event, used as a concrete
run for the statistics invariant. -/
def c2Events : List TestEvent :=
  [{ title := "a".data, parentTitle := some "s".data, location := none, duration := 1,
     status := .passed, tags := [], errors := [] },
   { title := "b".data, parentTitle := some "s".data, location := none, duration := 2,
     status := .failed, tags := [], errors := [some "boom".data] },
   { title := "c".data, parentTitle := none, location := none, duration := 3,
     status := .skipped, tags := [], errors := [] }]

/-- A failed event with no tags and a single error, used for the placeholder
and sentinel claim. -/
def c9Event : TestEvent :=
  { title := "untagged".data
    parentTitle := some "suite".data
    location := none
    duration := 4
    status := .failed
    tags := []
    errors := [some "boom".data] }

/-- A suite group making the failure map non-empty, used to drive the
delivery phase of onEnd. -/
def c5Group : JStr × List TestRecord :=
  ("suite".data, [recordOfError c9Event (some "boom".data)])

/-- Substring containment (String.prototype.includes), used to state that a
message still contains a given line after escape stripping. -/
def hasInfixL : JStr → JStr → Bool
  | [], p => p == []
  | c :: t, p => startsWithL (c :: t) p || hasInfixL t p

/-! ### Association-list map lemmas -/

theorem mapGet_mapSet_self {α : Type} (m : List (JStr × α)) (k : JStr) (v : α) :
    mapGet (mapSet m k v) k = some v := by
  induction m with
  | nil => simp [mapSet, mapGet]
  | cons hd t ih =>
    obtain ⟨k', v'⟩ := hd
    cases h : k' == k
    · simp [mapSet, h, mapGet, ih]
    · simp [mapSet, h, mapGet]

theorem mapGet_mapPush_self {α : Type} (m : List (JStr × List α)) (k : JStr) (r : α) :
    mapGet (mapPush m k r) k = some (((mapGet m k).getD []) ++ [r]) := by
  unfold mapPush
  exact mapGet_mapSet_self m k _

theorem length_allRecords_mapPush {α : Type} (m : List (JStr × List α)) (k : JStr) (r : α) :
    (allRecords (mapPush m k r)).length = (allRecords m).length + 1 := by
  induction m with
  | nil => simp [mapPush, mapSet, mapGet, allRecords]
  | cons hd t ih =>
    obtain ⟨k', l⟩ := hd
    cases h : k' == k
    · have : mapPush ((k', l) :: t) k r = (k', l) :: mapPush t k r := by
        simp [mapPush, mapSet, mapGet, h]
      rw [this]
      simp [allRecords] at ih ⊢
      omega
    · have : mapPush ((k', l) :: t) k r = (k, l ++ [r]) :: t := by
        simp [mapPush, mapSet, mapGet, h]
      rw [this]
      simp [allRecords]
      omega

theorem countP_allRecords_mapPush {α : Type} (p : α → Bool) (m : List (JStr × List α))
    (k : JStr) (r : α) :
    (allRecords (mapPush m k r)).countP p
      = (allRecords m).countP p + (if p r then 1 else 0) := by
  induction m with
  | nil => simp [mapPush, mapSet, mapGet, allRecords, List.countP_cons]
  | cons hd t ih =>
    obtain ⟨k', l⟩ := hd
    cases h : k' == k
    · have : mapPush ((k', l) :: t) k r = (k', l) :: mapPush t k r := by
        simp [mapPush, mapSet, mapGet, h]
      rw [this]
      simp [allRecords, List.countP_append] at ih ⊢
      omega
    · have : mapPush ((k', l) :: t) k r = (k, l ++ [r]) :: t := by
        simp [mapPush, mapSet, mapGet, h]
      rw [this]
      simp [allRecords, List.countP_append, List.countP_cons]
      omega

/-! ### Retry-loop lemmas -/

theorem retryFrom_stop (f : Nat → Bool) (r d a : Nat) (h : ¬ a ≤ r) :
    retryFrom f r d a = [.sendTerminalLog] := by
  rw [retryFrom]; simp [h]

theorem retryFrom_step (f : Nat → Bool) (r d a : Nat) (h : a ≤ r) :
    retryFrom f r d a =
      if f a then [.sendAttempt a, .sendOkLog]
      else [.sendAttempt a, .sendFailLog a] ++
        (if a < r then [.sleepDelay d] else []) ++ retryFrom f r d (a + 1) := by
  rw [retryFrom]; simp [h]

theorem retryFrom_shape (f : Nat → Bool) (r d : Nat) :
    ∀ k a, r + 1 - a ≤ k → ∀ ev ∈ retryFrom f r d a, isSendLoopEvent ev = true := by
  intro k
  induction k with
  | zero =>
    intro a ha ev hev
    have h : ¬ a ≤ r := by omega
    rw [retryFrom_stop f r d a h] at hev
    simp at hev
    subst hev
    rfl
  | succ k ih =>
    intro a ha ev hev
    by_cases h : a ≤ r
    · rw [retryFrom_step f r d a h] at hev
      by_cases hf : f a
      · simp [hf] at hev
        rcases hev with h1 | h1 <;> subst h1 <;> rfl
      · simp [hf] at hev
        rcases hev with h1 | h1 | ⟨_, h1⟩ | h1
        · subst h1; rfl
        · subst h1; rfl
        · subst h1; rfl
        · exact ih (a + 1) (by omega) ev h1
    · rw [retryFrom_stop f r d a h] at hev
      simp at hev; subst hev; rfl

theorem sendLoop_shape (f : Nat → Bool) (r d : Nat) :
    ∀ ev ∈ sendEmailWithRetryT f r d, isSendLoopEvent ev = true := by
  intro ev hev
  exact retryFrom_shape f r d (r + 1 - 1) 1 (by omega) ev hev

theorem not_mem_sendLoop (f : Nat → Bool) (r d : Nat) (ev : DEvent)
    (h : isSendLoopEvent ev = false) : ev ∉ sendEmailWithRetryT f r d := by
  intro hmem
  have := sendLoop_shape f r d ev hmem
  rw [h] at this
  cases this

theorem count_sendLoop_eq_zero (f : Nat → Bool) (r d : Nat) (ev : DEvent)
    (h : isSendLoopEvent ev = false) : (sendEmailWithRetryT f r d).count ev = 0 :=
  List.count_eq_zero.mpr (not_mem_sendLoop f r d ev h)

/-! ### Delivery claims -/

/-- C4: with a retry budget of 3 and a send operation failing on its first 3
invocations and succeeding on the 4th, the retry loop makes exactly 3 send
attempts (no 4th occurs), logs each failure with its attempt number, sleeps
the fixed 1000ms delay between attempts, and ends by logging a terminal
failure without raising; with budget 4 the same sequence succeeds on
attempt 4. -/
theorem mail_retry_budget (f : Nat → Bool)
    (h1 : f 1 = false) (h2 : f 2 = false) (h3 : f 3 = false) (h4 : f 4 = true) :
    sendEmailWithRetryT f 3 1000 =
      [.sendAttempt 1, .sendFailLog 1, .sleepDelay 1000,
       .sendAttempt 2, .sendFailLog 2, .sleepDelay 1000,
       .sendAttempt 3, .sendFailLog 3, .sendTerminalLog] ∧
    sendEmailWithRetryT f 4 1000 =
      [.sendAttempt 1, .sendFailLog 1, .sleepDelay 1000,
       .sendAttempt 2, .sendFailLog 2, .sleepDelay 1000,
       .sendAttempt 3, .sendFailLog 3, .sleepDelay 1000,
       .sendAttempt 4, .sendOkLog] := by
  constructor <;>
    simp [sendEmailWithRetryT, retryFrom_step, retryFrom_stop, h1, h2, h3, h4]

/-- C4 witness: the concrete send operation that succeeds exactly from
attempt 4 on. -/
theorem mail_retry_budget_witness :
    sendEmailWithRetryT sendOkFrom4 3 1000 =
      [.sendAttempt 1, .sendFailLog 1, .sleepDelay 1000,
       .sendAttempt 2, .sendFailLog 2, .sleepDelay 1000,
       .sendAttempt 3, .sendFailLog 3, .sendTerminalLog] ∧
    sendEmailWithRetryT sendOkFrom4 4 1000 =
      [.sendAttempt 1, .sendFailLog 1, .sleepDelay 1000,
       .sendAttempt 2, .sendFailLog 2, .sleepDelay 1000,
       .sendAttempt 3, .sendFailLog 3, .sleepDelay 1000,
       .sendAttempt 4, .sendOkLog] :=
  mail_retry_budget sendOkFrom4 rfl rfl rfl rfl

/-- C5 counterexample: in a run where no failed test was recorded, onEnd
returns before the delivery phase, so - contrary to the claim that every run
attempts SMTP verification - no verification is attempted. -/
theorem smtp_verify_cex :
    DEvent.verifyAttempt ∉ onEndTrace [] envAllOk ∧
    (onEndTrace [] envAllOk).count DEvent.verifyAttempt = 0 := by
  constructor
  · simp [onEndTrace]
  · simp [onEndTrace]

/-- C5 (amended): for every run with at least one recorded failed test, the
mail channel attempts SMTP verification exactly once (there is no
configuration bypass); whenever verification fails, the failure is logged
exactly once, no send attempt is ever made, and verification is not
retried. -/
theorem smtp_verify_always_and_abort (g : JStr × List TestRecord) (st : FMap)
    (env : DeliveryEnv) :
    (onEndTrace (g :: st) env).count DEvent.verifyAttempt = 1 ∧
    (onEndTrace (g :: st) { env with verifyOk := false }).count DEvent.verifyAttempt = 1 ∧
    (onEndTrace (g :: st) { env with verifyOk := false }).count DEvent.verifyErrLog = 1 ∧
    (onEndTrace (g :: st) { env with verifyOk := false }).filter isSendAttempt = [] := by
  obtain ⟨u, wok, vok, sok⟩ := env
  have hz : (sendEmailWithRetryT sok 3 1000).count DEvent.verifyAttempt = 0 :=
    count_sendLoop_eq_zero _ _ _ _ rfl
  refine ⟨?_, ?_, ?_, ?_⟩ <;>
    cases u <;> cases wok <;> cases vok <;>
      simp [onEndTrace, webhookTrace, mailTrace, List.count_cons, List.count_append,
        hz, isSendAttempt]

/-- C6: a failure of the single webhook POST is caught and logged, the POST
is not retried (it occurs exactly once in the trace), and the subsequent
mail-channel steps run exactly as they do when the webhook succeeds; in
particular SMTP verification is still attempted.  The try/catch in the
source swallows the error, so onEnd never re-raises: every outcome is an
ordinary trace. -/
theorem webhook_failure_isolated (g : JStr × List TestRecord) (st : FMap)
    (env : DeliveryEnv) (u : JStr) :
    onEndTrace (g :: st) { env with webhookUrl := some u, webhookOk := false } =
      .writeReport :: .webhookPost :: .webhookErrLog :: mailTrace env ∧
    (onEndTrace (g :: st)
        { env with webhookUrl := some u, webhookOk := false }).count DEvent.webhookPost = 1 ∧
    onEndTrace (g :: st) { env with webhookUrl := some u, webhookOk := true } =
      .writeReport :: .webhookPost :: .webhookOkLog :: mailTrace env ∧
    DEvent.verifyAttempt ∈
      onEndTrace (g :: st) { env with webhookUrl := some u, webhookOk := false } := by
  obtain ⟨u0, wok, vok, sok⟩ := env
  have hz : (sendEmailWithRetryT sok 3 1000).count DEvent.webhookPost = 0 :=
    count_sendLoop_eq_zero _ _ _ _ rfl
  refine ⟨?_, ?_, ?_, ?_⟩ <;>
    cases vok <;>
      simp [onEndTrace, webhookTrace, mailTrace, List.count_cons, List.count_append, hz]

/-! ### Error-message extraction claims -/

/-- C3 counterexample: a message in which an ANSI escape interrupts the
token "Expected" still contains the lines "Expected: 5" and "Received: 3"
once escapes are stripped, yet extraction yields an empty expected list
(and not ["5"]), because the source matches the raw message before any
stripping. -/
theorem ansi_strip_order_cex :
    hasInfixL (stripAnsiCodes c3TokenBroken) "Expected: 5".data = true ∧
    hasInfixL (stripAnsiCodes c3TokenBroken) "Received: 3".data = true ∧
    extractExpected c3TokenBroken = [] ∧
    ¬ extractExpected c3TokenBroken = ["5".data] := by
  refine ⟨by decide, by decide, by decide, by decide⟩

/-- C3 (amended): ANSI stripping is applied to each trimmed captured value
after the pattern matching on the raw message, not to the message before
matching.  A message whose escapes are adjacent to, but not inside, the
matched tokens and captures yields expected=["5"] and actual=["3"]; for the
token-broken message, matching the stripped message (as the spec words
demand) would yield ["5"] while the source yields []. -/
theorem ansi_strip_order_amended :
    extractExpected c3Interleaved = ["5".data] ∧
    extractActual c3Interleaved = ["3".data] ∧
    extractExpected c3TokenBroken = [] ∧
    specStripThenMatchExpected c3TokenBroken = ["5".data] := by
  refine ⟨by decide, by decide, by decide, by decide⟩

/-! ### Tag-parsing claims -/

/-- C7: parsing the four-tag list yields local="fr", realm="eu" and the
payment_method list ["cb","paypal"] in tag-encounter order. -/
theorem tags_concrete_parse :
    extractDataFromTags
      ["@local:fr".data, "@realm:eu".data,
       "@payment_method:cb".data, "@payment_method:paypal".data] =
      { local_ := "fr".data
        realm := "eu".data
        customTags := [("payment_method".data, .list ["cb".data, "paypal".data])] } := by
  decide

/-! ### Ingestion claims -/

theorem foldl_mapPush_get {α β : Type} (f : β → α) (k : JStr) :
    ∀ (errs : List β) (st : List (JStr × List α)), errs ≠ [] →
      mapGet (errs.foldl (fun acc err => mapPush acc k (f err)) st) k
        = some (((mapGet st k).getD []) ++ errs.map f) := by
  intro errs
  induction errs with
  | nil => intro st h; exact absurd rfl h
  | cons e es ih =>
    intro st _
    cases es with
    | nil => simp [mapGet_mapPush_self]
    | cons e2 es2 =>
      rw [List.foldl_cons, ih (mapPush st k (f e)) (by simp), mapGet_mapPush_self]
      simp

theorem foldl_mapPush_length {α β : Type} (f : β → α) (k : JStr) :
    ∀ (errs : List β) (st : List (JStr × List α)),
      (allRecords (errs.foldl (fun acc err => mapPush acc k (f err)) st)).length
        = (allRecords st).length + errs.length := by
  intro errs
  induction errs with
  | nil => intro st; simp
  | cons e es ih =>
    intro st
    rw [List.foldl_cons, ih (mapPush st k (f e)), length_allRecords_mapPush]
    simp
    omega

theorem foldl_overwrite_last :
    ∀ (l : List (Option JStr)) (e : Option JStr) (td : FullRecord),
      (l ++ [e]).foldl overwriteError td = overwriteError td e := by
  intro l
  induction l with
  | nil => intro e td; rfl
  | cons a l ih =>
    intro e td
    rw [List.cons_append, List.foldl_cons, ih]
    rfl

/-- C1 (amended): for a failed event with at least one recorded error, the
failure-only reporter appends one TestRecord per error (so an event with
several errors stores several records, each carrying its own error's
extracted fields), while the full-run reporter stores exactly one record
whose error fields are those extracted from the last error processed. -/
theorem multi_error_records (st : FMap) (st2 : FullMap) (e : TestEvent)
    (errs : List (Option JStr)) (err : Option JStr)
    (hs : e.status = .failed) (he : e.errors = errs ++ [err]) :
    mapGet (onTestEnd st e) (describeNameOf e)
      = some (((mapGet st (describeNameOf e)).getD []) ++ e.errors.map (recordOfError e)) ∧
    (allRecords (onTestEnd st e)).length = (allRecords st).length + e.errors.length ∧
    mapGet (onTestEndFull st2 e) (describeNameFullOf e)
      = some (((mapGet st2 (describeNameFullOf e)).getD []) ++ [fullRecordOf e]) ∧
    (fullRecordOf e).rawError = some (stripAnsiCodes (rawOf err)) ∧
    (fullRecordOf e).expected = some (extractExpected (rawOf err)) ∧
    (fullRecordOf e).actual = some (extractActual (rawOf err)) := by
  have hne : e.errors ≠ [] := by rw [he]; simp
  have hfail : (e.status == .failed) = true := by rw [hs]; rfl
  have hfull : fullRecordOf e = overwriteError (mkFullBase e) err := by
    unfold fullRecordOf
    rw [hfail, if_pos rfl, he, foldl_overwrite_last]
  refine ⟨?_, ?_, ?_, ?_, ?_, ?_⟩
  · unfold onTestEnd
    rw [hfail, if_pos rfl]
    exact foldl_mapPush_get (recordOfError e) (describeNameOf e) e.errors st hne
  · unfold onTestEnd
    rw [hfail, if_pos rfl]
    exact foldl_mapPush_length (recordOfError e) (describeNameOf e) e.errors st
  · exact mapGet_mapPush_self st2 (describeNameFullOf e) (fullRecordOf e)
  · rw [hfull]; rfl
  · rw [hfull]; rfl
  · rw [hfull]; rfl

/-- C1 counterexample: c1Event is a failed completion event carrying two
recorded errors, and the failure-only onTestEnd stores two TestRecords for
it, not exactly one as the claim states. -/
theorem multi_error_records_cex :
    (allRecords (onTestEnd [] c1Event)).length = 2 ∧
    ¬ (allRecords (onTestEnd [] c1Event)).length = 1 := by
  refine ⟨by decide, by decide⟩

/-- C1 witness: the amended statement at the concrete two-error event. -/
theorem multi_error_records_witness :
    mapGet (onTestEnd [] c1Event) (describeNameOf c1Event)
      = some (((mapGet ([] : FMap) (describeNameOf c1Event)).getD [])
          ++ c1Event.errors.map (recordOfError c1Event)) ∧
    (allRecords (onTestEnd [] c1Event)).length
      = (allRecords ([] : FMap)).length + c1Event.errors.length ∧
    mapGet (onTestEndFull [] c1Event) (describeNameFullOf c1Event)
      = some (((mapGet ([] : FullMap) (describeNameFullOf c1Event)).getD [])
          ++ [fullRecordOf c1Event]) ∧
    (fullRecordOf c1Event).rawError
      = some (stripAnsiCodes (rawOf (some "Expected: 9\nReceived: 8".data))) ∧
    (fullRecordOf c1Event).expected
      = some (extractExpected (rawOf (some "Expected: 9\nReceived: 8".data))) ∧
    (fullRecordOf c1Event).actual
      = some (extractActual (rawOf (some "Expected: 9\nReceived: 8".data))) :=
  multi_error_records [] [] c1Event [some "Expected: 1\nReceived: 2".data]
    (some "Expected: 9\nReceived: 8".data) rfl rfl

/-! ### Statistics claims -/

theorem foldl_statsStep_eq (l : List FullRecord) : ∀ s : RunStats,
    l.foldl statsStep s =
      { totalTests := s.totalTests + l.length
        totalPassed := s.totalPassed + l.countP (fun t => t.status == .passed)
        totalFailed := s.totalFailed + l.countP (fun t => t.status == .failed)
        totalSkipped := s.totalSkipped + l.countP (fun t => t.status == .skipped) } := by
  induction l with
  | nil => intro s; simp
  | cons a l ih =>
    intro s
    rw [List.foldl_cons, ih]
    simp only [statsStep, List.countP_cons, List.length_cons, RunStats.mk.injEq]
    cases ha : a.status <;> simp [ha] <;> omega

theorem runStats_foldl (st : FullMap) : ∀ s : RunStats,
    st.foldl (fun s kv => kv.2.foldl statsStep s) s = (allRecords st).foldl statsStep s := by
  induction st with
  | nil => intro s; rfl
  | cons kv t ih =>
    intro s
    obtain ⟨k, l⟩ := kv
    have hall : allRecords ((k, l) :: t) = l ++ allRecords t := by simp [allRecords]
    rw [List.foldl_cons, hall, List.foldl_append, ih]

theorem runStats_eq (st : FullMap) :
    runStats st = (allRecords st).foldl statsStep ⟨0, 0, 0, 0⟩ :=
  runStats_foldl st ⟨0, 0, 0, 0⟩

theorem countP_fold_full (p : FullRecord → Bool) :
    ∀ (events : List TestEvent) (st : FullMap),
      (allRecords (events.foldl onTestEndFull st)).countP p
        = (allRecords st).countP p + (events.map fullRecordOf).countP p := by
  intro events
  induction events with
  | nil => intro st; simp
  | cons e es ih =>
    intro st
    rw [List.foldl_cons, ih (onTestEndFull st e)]
    unfold onTestEndFull
    rw [countP_allRecords_mapPush]
    simp only [List.map_cons, List.countP_cons]
    cases hp : p (fullRecordOf e) <;> simp [hp] <;> omega

theorem length_fold_full :
    ∀ (events : List TestEvent) (st : FullMap),
      (allRecords (events.foldl onTestEndFull st)).length
        = (allRecords st).length + events.length := by
  intro events
  induction events with
  | nil => intro st; simp
  | cons e es ih =>
    intro st
    rw [List.foldl_cons, ih (onTestEndFull st e)]
    unfold onTestEndFull
    rw [length_allRecords_mapPush]
    simp
    omega

theorem foldl_overwrite_status : ∀ (l : List (Option JStr)) (td : FullRecord),
    (l.foldl overwriteError td).status = td.status := by
  intro l
  induction l with
  | nil => intro td; rfl
  | cons a l ih => intro td; rw [List.foldl_cons, ih]; rfl

theorem fullRecordOf_status (e : TestEvent) : (fullRecordOf e).status = e.status := by
  unfold fullRecordOf
  split
  · rw [foldl_overwrite_status]; rfl
  · rfl

theorem countP_status_partition :
    ∀ l : List FullRecord,
      (∀ t ∈ l, t.status = .passed ∨ t.status = .failed ∨ t.status = .skipped) →
      l.countP (fun t => t.status == .passed) + l.countP (fun t => t.status == .failed)
        + l.countP (fun t => t.status == .skipped) = l.length := by
  intro l
  induction l with
  | nil => intro _; rfl
  | cons a l ih =>
    intro h
    have ha := h a (by simp)
    have hi := ih (fun t ht => h t (by simp [ht]))
    rw [List.countP_cons, List.countP_cons, List.countP_cons]
    rcases ha with ha | ha | ha <;> simp [ha] <;> omega

/-- C2: for every sequence of ingested completion events whose statuses all
lie in {passed, failed, skipped}, the end-of-run statistics of the full-run
reporter satisfy totalPassed + totalFailed + totalSkipped = totalTests and
totalTests equals the number of ingested events. -/
theorem stats_partition (events : List TestEvent)
    (h : ∀ e ∈ events, e.status = .passed ∨ e.status = .failed ∨ e.status = .skipped) :
    (runStats (events.foldl onTestEndFull [])).totalPassed
      + (runStats (events.foldl onTestEndFull [])).totalFailed
      + (runStats (events.foldl onTestEndFull [])).totalSkipped
      = (runStats (events.foldl onTestEndFull [])).totalTests ∧
    (runStats (events.foldl onTestEndFull [])).totalTests = events.length := by
  have hlen : (allRecords (events.foldl onTestEndFull [])).length = events.length := by
    rw [length_fold_full events []]; simp [allRecords]
  have hcp : ∀ p : FullRecord → Bool,
      (allRecords (events.foldl onTestEndFull [])).countP p
        = (events.map fullRecordOf).countP p := by
    intro p
    rw [countP_fold_full p events []]
    simp [allRecords]
  have hpart : (events.map fullRecordOf).countP (fun t => t.status == .passed)
      + (events.map fullRecordOf).countP (fun t => t.status == .failed)
      + (events.map fullRecordOf).countP (fun t => t.status == .skipped)
      = (events.map fullRecordOf).length := by
    apply countP_status_partition
    intro t ht
    simp only [List.mem_map] at ht
    obtain ⟨e, he, rfl⟩ := ht
    rw [fullRecordOf_status]
    exact h e he
  have h1 := hcp (fun t => t.status == .passed)
  have h2 := hcp (fun t => t.status == .failed)
  have h3 := hcp (fun t => t.status == .skipped)
  have h4 : (events.map fullRecordOf).length = events.length := by simp
  rw [runStats_eq, foldl_statsStep_eq]
  dsimp only
  constructor <;> omega

/-- C2 witness: the three-event run with one passed, one failed and one
skipped test. -/
theorem stats_partition_witness :
    (runStats (c2Events.foldl onTestEndFull [])).totalPassed
      + (runStats (c2Events.foldl onTestEndFull [])).totalFailed
      + (runStats (c2Events.foldl onTestEndFull [])).totalSkipped
      = (runStats (c2Events.foldl onTestEndFull [])).totalTests ∧
    (runStats (c2Events.foldl onTestEndFull [])).totalTests = c2Events.length :=
  stats_partition c2Events (by decide)

/-- C9: ingesting a failed test with an empty tag list (and one recorded
error) produces a record whose verbatim tag list is the single placeholder
["No tags"], whose local and realm both hold the sentinel "N/A", and whose
parsing emits exactly one diagnostic warning. -/
theorem no_tags_placeholder (st : FMap) (e : TestEvent) (err : Option JStr)
    (hs : e.status = .failed) (ht : e.tags = []) (he : e.errors = [err]) :
    (recordOfError e err).tags = ["No tags".data] ∧
    (recordOfError e err).local_ = "N/A".data ∧
    (recordOfError e err).realm = "N/A".data ∧
    tagWarnCount (extractTags e.tags) = 1 ∧
    mapGet (onTestEnd st e) (describeNameOf e)
      = some (((mapGet st (describeNameOf e)).getD []) ++ [recordOfError e err]) := by
  have hfail : (e.status == .failed) = true := by rw [hs]; rfl
  refine ⟨?_, ?_, ?_, ?_, ?_⟩
  · simp only [recordOfError]
    rw [ht]
    decide
  · simp only [recordOfError]
    rw [ht]
    decide
  · simp only [recordOfError]
    rw [ht]
    decide
  · rw [ht]
    decide
  · unfold onTestEnd
    rw [hfail, if_pos rfl, he]
    simp only [List.foldl_cons, List.foldl_nil]
    exact mapGet_mapPush_self st (describeNameOf e) (recordOfError e err)

/-- C9 witness: the untagged failed event with a single error. -/
theorem no_tags_placeholder_witness :
    (recordOfError c9Event (some "boom".data)).tags = ["No tags".data] ∧
    (recordOfError c9Event (some "boom".data)).local_ = "N/A".data ∧
    (recordOfError c9Event (some "boom".data)).realm = "N/A".data ∧
    tagWarnCount (extractTags c9Event.tags) = 1 ∧
    mapGet (onTestEnd [] c9Event) (describeNameOf c9Event)
      = some (((mapGet ([] : FMap) (describeNameOf c9Event)).getD [])
          ++ [recordOfError c9Event (some "boom".data)]) :=
  no_tags_placeholder [] c9Event (some "boom".data) rfl rfl rfl

/-! ### Tag-grammar lemmas -/

theorem startsWithL_colon_free : ∀ (k w v : JStr), ':' ∉ k → ':' ∉ w →
    (startsWithL (k ++ ':' :: v) (w ++ [':']) = true ↔ k = w) := by
  intro k
  induction k with
  | nil =>
    intro w v _ hw
    cases w with
    | nil => simp [startsWithL]
    | cons c w' =>
      have hc : ¬ (':' = c) := fun h => hw (by simp [h.symm])
      simp [startsWithL, hc]
  | cons a k' ih =>
    intro w v hk hw
    cases w with
    | nil =>
      have ha : ¬ (a = ':') := fun h => hk (by simp [h])
      simp [startsWithL, ha]
    | cons c w' =>
      have hk' : ':' ∉ k' := fun h => hk (List.mem_cons_of_mem _ h)
      have hw' : ':' ∉ w' := fun h => hw (List.mem_cons_of_mem _ h)
      simp [startsWithL, ih w' v hk' hw']

theorem startsWithL_append_self : ∀ (p r : JStr), startsWithL (p ++ r) p = true := by
  intro p
  induction p with
  | nil => intro r; simp [startsWithL]
  | cons a p ih => intro r; simp [startsWithL, ih]

theorem headMismatch_excl : ∀ (t p q : JStr), headMismatch p q = true →
    startsWithL t p = true → startsWithL t q = false := by
  intro t
  induction t with
  | nil =>
    intro p q hpq hp
    cases p with
    | nil => simp [headMismatch] at hpq
    | cons a as => simp [startsWithL] at hp
  | cons c cs ih =>
    intro p q hpq hp
    cases p with
    | nil => simp [headMismatch] at hpq
    | cons a as =>
      cases q with
      | nil => simp [headMismatch] at hpq
      | cons b bs =>
        simp only [startsWithL, Bool.and_eq_true, beq_iff_eq] at hp
        obtain ⟨hca, hrest⟩ := hp
        simp only [headMismatch, Bool.or_eq_true, Bool.not_eq_true',
          beq_eq_false_iff_ne, ne_eq] at hpq
        rcases hpq with h | h
        · have hcb : ¬ (c = b) := by rw [hca]; exact h
          simp [startsWithL, hcb]
        · have hz := ih as bs h hrest
          simp [startsWithL, hz]

theorem splitOnC_cons_sep (xs : JStr) : splitOnC ':' (':' :: xs) = [] :: splitOnC ':' xs := by
  simp [splitOnC]

theorem splitOnC_append_colon_free : ∀ (k rest : JStr), ':' ∉ k →
    splitOnC ':' (k ++ ':' :: rest) = k :: splitOnC ':' rest := by
  intro k
  induction k with
  | nil => intro rest _; simp [splitOnC]
  | cons a k' ih =>
    intro rest hk
    have ha : ¬ ((a == ':') = true) := by
      simp only [beq_iff_eq]
      exact fun h => hk (by simp [h])
    have hk' : ':' ∉ k' := fun h => hk (List.mem_cons_of_mem _ h)
    simp only [List.cons_append, splitOnC, if_neg ha, List.append_eq]
    rw [ih rest hk']

theorem splitOnC_colon_free : ∀ (v : JStr), ':' ∉ v → splitOnC ':' v = [v] := by
  intro v
  induction v with
  | nil => intro _; rfl
  | cons a v' ih =>
    intro hv
    have ha : ¬ ((a == ':') = true) := by
      simp only [beq_iff_eq]
      exact fun h => hv (by simp [h])
    have hv' : ':' ∉ v' := fun h => hv (List.mem_cons_of_mem _ h)
    simp only [splitOnC, if_neg ha]
    rw [ih hv']

theorem splitOnC_first : ∀ tl : JStr, ':' ∈ tl →
    ∃ rest, tl = ((splitOnC ':' tl).getD 0 []) ++ ':' :: rest ∧
      ':' ∉ (splitOnC ':' tl).getD 0 [] ∧
      splitOnC ':' tl = ((splitOnC ':' tl).getD 0 []) :: splitOnC ':' rest := by
  intro tl
  induction tl with
  | nil => intro h; cases h
  | cons x xs ih =>
    intro hmem
    by_cases hx : x = ':'
    · subst hx
      refine ⟨xs, ?_, ?_, ?_⟩ <;> simp [splitOnC_cons_sep]
    · have hxs : ':' ∈ xs := by
        rcases List.mem_cons.mp hmem with h | h
        · exact absurd h.symm hx
        · exact h
      obtain ⟨rest, h1, h2, h3⟩ := ih hxs
      have hxb : ¬ ((x == ':') = true) := by simp [hx]
      have hsp : splitOnC ':' (x :: xs)
          = (x :: (splitOnC ':' xs).getD 0 []) :: splitOnC ':' rest := by
        simp only [splitOnC, if_neg hxb]
        rw [h3]
        rfl
      refine ⟨rest, ?_, ?_, ?_⟩
      · rw [hsp]
        simp only [List.getD_cons_zero]
        rw [List.cons_append]
        rw [← h1]
      · rw [hsp]
        simp only [List.getD_cons_zero]
        intro hmem2
        rcases List.mem_cons.mp hmem2 with h | h
        · exact hx h.symm
        · exact h2 h
      · rw [hsp]
        simp only [List.getD_cons_zero]

theorem lookupTag_setTag_self : ∀ (m : List (JStr × TagValue)) (k : JStr) (v : TagValue),
    lookupTag (setTag m k v) k = some v := by
  intro m
  induction m with
  | nil => intro k v; simp [setTag, lookupTag]
  | cons hd t ih =>
    intro k v
    obtain ⟨k', v'⟩ := hd
    cases h : k' == k
    · simp [setTag, h, lookupTag, ih]
    · simp [setTag, h, lookupTag]

theorem lookupTag_setTag_ne : ∀ (m : List (JStr × TagValue)) (kw k : JStr) (v : TagValue),
    ¬ (kw = k) → lookupTag (setTag m kw v) k = lookupTag m k := by
  intro m
  induction m with
  | nil =>
    intro kw k v hne
    simp [setTag, lookupTag, hne]
  | cons hd t ih =>
    intro kw k v hne
    obtain ⟨k', v'⟩ := hd
    cases h : k' == kw
    · simp [setTag, h, lookupTag, ih _ _ _ hne]
    · have hk'kw : k' = kw := by simpa using h
      have : ¬ (k' == k) = true := by
        simp only [beq_iff_eq]
        rw [hk'kw]
        exact hne
      simp [setTag, h, lookupTag, hne, this]

theorem getPML_pushPayment (m : List (JStr × TagValue)) (v : JStr) :
    getPML (pushPaymentMethod m v) = getPML m ++ [v] := by
  unfold pushPaymentMethod getPML
  rw [lookupTag_setTag_self]

theorem getPML_setTag_ne (m : List (JStr × TagValue)) (k : JStr) (v : TagValue)
    (hk : ¬ (k = "payment_method".data)) :
    getPML (setTag m k v) = getPML m := by
  unfold getPML
  rw [lookupTag_setTag_ne m k _ v hk]

theorem startsWith_at_tag_false (k v w : JStr) (hk : ':' ∉ k) (hw : ':' ∉ w)
    (hne : ¬ k = w) :
    startsWithL ('@' :: (k ++ ':' :: v)) ('@' :: (w ++ [':'])) = false := by
  simp only [startsWithL, beq_self_eq_true, Bool.true_and]
  rw [Bool.eq_false_iff]
  intro h
  exact hne ((startsWithL_colon_free k w v hk hw).mp h)

theorem stepTag_generic (d : TagData) (k v : JStr) (hk : ':' ∉ k)
    (h1 : ¬ k = "local".data) (h2 : ¬ k = "locale".data) (h3 : ¬ k = "realm".data)
    (h4 : ¬ k = "payment_method".data) :
    stepTag d ('@' :: (k ++ ':' :: v))
      = { d with customTags := setTag d.customTags k (.str ((splitOnC ':' v).getD 0 [])) } := by
  have c1 : startsWithL ('@' :: (k ++ ':' :: v)) "@local:".data = false :=
    startsWith_at_tag_false k v "local".data hk (by decide) h1
  have c2 : startsWithL ('@' :: (k ++ ':' :: v)) "@locale:".data = false :=
    startsWith_at_tag_false k v "locale".data hk (by decide) h2
  have c3 : startsWithL ('@' :: (k ++ ':' :: v)) "@realm:".data = false :=
    startsWith_at_tag_false k v "realm".data hk (by decide) h3
  have c4 : startsWithL ('@' :: (k ++ ':' :: v)) "@payment_method:".data = false :=
    startsWith_at_tag_false k v "payment_method".data hk (by decide) h4
  have c5 : startsWithL ('@' :: (k ++ ':' :: v)) "@".data = true := by
    simp [startsWithL]
  have c6 : containsCharL ('@' :: (k ++ ':' :: v)) ':' = true := by
    simp [containsCharL]
  simp only [stepTag, c1, c2, c3, c4, c5, c6, Bool.or_self, Bool.false_or,
    Bool.true_and, Bool.and_self, if_false, if_true, List.drop_succ_cons, List.drop_zero,
    Bool.false_eq_true, ite_false, ite_true]
  rw [splitOnC_append_colon_free k v hk]
  simp [List.getD_cons_zero, List.getD_cons_succ]

theorem getPML_stepTag (d : TagData) (t : JStr) :
    getPML (stepTag d t).customTags = getPML d.customTags ++ (pmValueOf t).toList := by
  by_cases hl : (startsWithL t "@local:".data || startsWithL t "@locale:".data) = true
  · have hpm : startsWithL t "@payment_method:".data = false := by
      have hl2 : startsWithL t "@local:".data = true ∨ startsWithL t "@locale:".data = true := by
        simpa using hl
      rcases hl2 with h | h
      · exact headMismatch_excl t _ _ (by decide) h
      · exact headMismatch_excl t _ _ (by decide) h
    simp [stepTag, hl, pmValueOf, hpm]
  · simp only [Bool.not_eq_true] at hl
    by_cases hr : startsWithL t "@realm:".data = true
    · have hpm : startsWithL t "@payment_method:".data = false :=
        headMismatch_excl t _ _ (by decide) hr
      simp [stepTag, hl, hr, pmValueOf, hpm]
    · simp only [Bool.not_eq_true] at hr
      by_cases hp : startsWithL t "@payment_method:".data = true
      · simp [stepTag, hl, hr, hp, pmValueOf, getPML_pushPayment]
      · simp only [Bool.not_eq_true] at hp
        by_cases hg : (startsWithL t "@".data && containsCharL t ':') = true
        · have hg2 : startsWithL t "@".data = true ∧ containsCharL t ':' = true := by
            simpa using hg
          obtain ⟨hat, hcol⟩ := hg2
          cases t with
          | nil => simp [startsWithL] at hat
          | cons c tl =>
            have hc : c = '@' := by
              simp only [startsWithL, Bool.and_eq_true, beq_iff_eq] at hat
              exact hat.1
            subst hc
            have hcoltl : ':' ∈ tl := by
              simp only [containsCharL, List.any_cons, List.any_eq_true, beq_iff_eq,
                Bool.or_eq_true] at hcol
              rcases hcol with h | ⟨x, hx, rfl⟩
              · exact absurd h (by decide)
              · exact hx
            obtain ⟨rest, hdec, hnotin, hsplit⟩ := splitOnC_first tl hcoltl
            have hkne : ¬ (splitOnC ':' tl).getD 0 [] = "payment_method".data := by
              intro hEq
              have hsw : startsWithL ('@' :: tl) "@payment_method:".data = true := by
                rw [hdec, hEq]
                rw [show ('@' :: ("payment_method".data ++ ':' :: rest))
                    = "@payment_method:".data ++ rest from rfl]
                exact startsWithL_append_self _ _
              rw [hp] at hsw
              cases hsw
            simp only [stepTag, hl, hr, hp, hg, Bool.or_self, if_false, if_true,
              Bool.false_eq_true, ite_false, ite_true, List.drop_succ_cons, List.drop_zero]
            rw [getPML_setTag_ne _ _ _ hkne]
            simp [pmValueOf, hp]
        · simp only [Bool.not_eq_true] at hg
          have hp2 : pmValueOf t = none := by simp [pmValueOf, hp]
          simp [stepTag, hl, hr, hp, hg, hp2]

theorem getPML_extract : ∀ (tags : List JStr) (d : TagData),
    getPML ((tags.foldl stepTag d).customTags)
      = getPML d.customTags ++ tags.filterMap pmValueOf := by
  intro tags
  induction tags with
  | nil => intro d; simp
  | cons t ts ih =>
    intro d
    rw [List.foldl_cons, ih (stepTag d t), getPML_stepTag]
    cases h : pmValueOf t <;> simp [h, List.filterMap_cons]

theorem lookupTag_stepTag_preserve (d : TagData) (t k : JStr)
    (hk4 : ¬ k = "payment_method".data) (hw : writesKeyB k t = false) :
    lookupTag (stepTag d t).customTags k = lookupTag d.customTags k := by
  by_cases hl : (startsWithL t "@local:".data || startsWithL t "@locale:".data) = true
  · simp [stepTag, hl]
  · simp only [Bool.not_eq_true] at hl
    by_cases hr : startsWithL t "@realm:".data = true
    · simp [stepTag, hl, hr]
    · simp only [Bool.not_eq_true] at hr
      by_cases hp : startsWithL t "@payment_method:".data = true
      · simp only [stepTag, hl, hr, hp, Bool.or_self, Bool.false_eq_true, ite_false,
          ite_true, if_false, if_true]
        unfold pushPaymentMethod
        exact lookupTag_setTag_ne _ _ _ _ (fun h => hk4 h.symm)
      · simp only [Bool.not_eq_true] at hp
        by_cases hg : (startsWithL t "@".data && containsCharL t ':') = true
        · have hg2 : startsWithL t "@".data = true ∧ containsCharL t ':' = true := by
            simpa using hg
          obtain ⟨hat, hcol⟩ := hg2
          cases t with
          | nil => simp [startsWithL] at hat
          | cons c tl =>
            have hc : c = '@' := by
              simp only [startsWithL, Bool.and_eq_true, beq_iff_eq] at hat
              exact hat.1
            subst hc
            have hcoltl : ':' ∈ tl := by
              simp only [containsCharL, List.any_cons, List.any_eq_true, beq_iff_eq,
                Bool.or_eq_true] at hcol
              rcases hcol with h | ⟨x, hx, rfl⟩
              · exact absurd h (by decide)
              · exact hx
            obtain ⟨rest, hdec, hnotin, hsplit⟩ := splitOnC_first tl hcoltl
            have hkne : ¬ (splitOnC ':' tl).getD 0 [] = k := by
              intro hEq
              have hsw : startsWithL ('@' :: tl) ('@' :: (k ++ [':'])) = true := by
                rw [hdec, hEq]
                have has : ('@' :: (k ++ [':'])) ++ rest = '@' :: (k ++ ':' :: rest) := by
                  simp [List.append_assoc]
                rw [← has]
                exact startsWithL_append_self _ _
              rw [writesKeyB, hsw] at hw
              cases hw
            simp only [stepTag, hl, hr, hp, hg, Bool.or_self, if_false, if_true,
              Bool.false_eq_true, ite_false, ite_true, List.drop_succ_cons, List.drop_zero]
            exact lookupTag_setTag_ne _ _ _ _ hkne
        · simp only [Bool.not_eq_true] at hg
          simp [stepTag, hl, hr, hp, hg]

theorem lookupTag_foldl_preserve (k : JStr) (hk4 : ¬ k = "payment_method".data) :
    ∀ (post : List JStr) (d : TagData), (∀ t ∈ post, writesKeyB k t = false) →
      lookupTag ((post.foldl stepTag d).customTags) k = lookupTag d.customTags k := by
  intro post
  induction post with
  | nil => intro d _; rfl
  | cons t ts ih =>
    intro d h
    rw [List.foldl_cons, ih (stepTag d t) (fun t' ht' => h t' (List.mem_cons_of_mem _ ht')),
      lookupTag_stepTag_preserve d t k hk4 (h t (List.mem_cons_self _ _))]

/-- C8: for every generic key k outside {local, locale, realm,
payment_method} (colon-free, like every key the grammar can produce), a
generic tag "@k:v" overwrites whatever value k held before, and no later tag
that does not write k changes it - last-write-wins; whereas the
payment_method value of any parsed tag list is exactly the list of all
payment_method tag values in encounter order - each additional tag appends
and never replaces. -/
theorem custom_tag_last_write (pre post : List JStr) (k v : JStr) (tags : List JStr)
    (hk : ':' ∉ k) (hv : ':' ∉ v)
    (h1 : ¬ k = "local".data) (h2 : ¬ k = "locale".data) (h3 : ¬ k = "realm".data)
    (h4 : ¬ k = "payment_method".data)
    (hpost : ∀ t ∈ post, writesKeyB k t = false) :
    lookupTag (extractDataFromTags (pre ++ ('@' :: (k ++ ':' :: v)) :: post)).customTags k
      = some (.str v) ∧
    getPML (extractDataFromTags tags).customTags = tags.filterMap pmValueOf := by
  constructor
  · unfold extractDataFromTags
    rw [List.foldl_append, List.foldl_cons]
    rw [lookupTag_foldl_preserve k h4 post _ hpost]
    rw [stepTag_generic _ k v hk h1 h2 h3 h4]
    dsimp only
    rw [splitOnC_colon_free v hv]
    simp only [List.getD_cons_zero]
    exact lookupTag_setTag_self _ _ _
  · unfold extractDataFromTags
    rw [getPML_extract tags _]
    simp [getPML, lookupTag]

/-- C8 witness: the key env is overwritten by its last tag while two
payment_method tags accumulate. -/
theorem custom_tag_last_write_witness :
    lookupTag (extractDataFromTags
        (["@env:us".data] ++ ('@' :: ("env".data ++ ':' :: "eu".data)) :: ["@realm:eu".data])).customTags
        "env".data = some (.str "eu".data) ∧
    getPML (extractDataFromTags ["@payment_method:cb".data, "@x:1".data,
        "@payment_method:paypal".data]).customTags
      = ["@payment_method:cb".data, "@x:1".data,
          "@payment_method:paypal".data].filterMap pmValueOf :=
  custom_tag_last_write ["@env:us".data] ["@realm:eu".data] "env".data "eu".data
    ["@payment_method:cb".data, "@x:1".data, "@payment_method:paypal".data]
    (by decide) (by decide) (by decide) (by decide) (by decide) (by decide) (by decide)

/-- C10: a generic tag "@k:value" whose value contains a colon stores only
the portion of the value before its first colon (the second field of the
JS split) and silently discards the remainder, e.g. "@env:us:east" yields
customTags.env = "us". -/
theorem generic_tag_value_truncated (k v1 v2 : JStr)
    (hk : ':' ∉ k) (hv1 : ':' ∉ v1)
    (h1 : ¬ k = "local".data) (h2 : ¬ k = "locale".data) (h3 : ¬ k = "realm".data)
    (h4 : ¬ k = "payment_method".data) :
    extractDataFromTags ['@' :: (k ++ ':' :: (v1 ++ ':' :: v2))]
      = { local_ := "N/A".data, realm := "N/A".data, customTags := [(k, .str v1)] } := by
  unfold extractDataFromTags
  rw [List.foldl_cons, List.foldl_nil, stepTag_generic _ k _ hk h1 h2 h3 h4]
  rw [splitOnC_append_colon_free v1 (v2) hv1]
  simp [setTag]

/-- C10 witness: the tag "@env:us:east" stores env = "us". -/
theorem generic_tag_value_truncated_witness :
    extractDataFromTags ['@' :: ("env".data ++ ':' :: ("us".data ++ ':' :: "east".data))]
      = { local_ := "N/A".data, realm := "N/A".data,
          customTags := [("env".data, .str "us".data)] } :=
  generic_tag_value_truncated "env".data "us".data "east".data
    (by decide) (by decide) (by decide) (by decide) (by decide) (by decide)
